import Mathlib

/-!
Verification development for the mini-dbg debugger.

This file gives a shallow embedding of the breakpoint engine of
`src/target.rs`, the `/proc/<pid>/maps` parsing of `src/util.rs` and the
REPL command parsing of `src/replcommand.rs`, and proves or refutes the
specification claims about them.

Modelling conventions:
* Tracee byte memory is a total function `Nat → Fin 256`; ptrace
  PEEKDATA/POKEDATA succeed at an address exactly when `valid` holds there
  (`valid` is fixed over a run, matching a tracee whose mapping does not
  change while stopped).
* The tracee is assumed not to modify its own text; only the debugger
  writes the bytes the claims talk about.  Tracee execution between
  debugger operations is modelled as an arbitrary change of `rip`.
* `u64`/`usize` arithmetic is `Nat` with explicit `% 2 ^ 64`; `u8` values
  are kept below 256.
* The `HashMap<usize, Breakpoint>` is an association list; iteration
  order of the source map is unspecified, the list order stands for one
  such order.  `insert` and `remove` keep the replace/erase semantics.
* `println!` output relevant to the claims is returned as a list of
  abstract `OutEvent`s (for `print_local` the exact formatted string is
  produced, since a claim is about the format).
-/

namespace MiniDbg

instance {ε α : Type} [DecidableEq ε] [DecidableEq α] : DecidableEq (Except ε α) :=
  fun a b =>
  match a, b with
  | .error e1, .error e2 =>
    if h : e1 = e2 then isTrue (by rw [h]) else isFalse (by simp [h])
  | .ok v1, .ok v2 =>
    if h : v1 = v2 then isTrue (by rw [h]) else isFalse (by simp [h])
  | .error _, .ok _ => isFalse (by simp)
  | .ok _, .error _ => isFalse (by simp)

/-- Tracee byte memory. -/
abbrev Mem := Nat → Fin 256

/-- `Target::align_addr_to_word`: `addr & !(size_of::<usize>() - 1)` with
word size 8, i.e. clearing the low three bits. -/
def align_addr_to_word (addr : Nat) : Nat := addr / 8 * 8

/-- Byte `i` (little endian) of a word: `(w >> (8 * i)) & 0xff`. -/
def byteAt (w i : Nat) : Nat := w / 256 ^ i % 256

/-- The `u64` read by PEEKDATA at `al`: the little-endian assembly of the
eight bytes `mem[al..al+8]` (the source recovers them via `to_le_bytes`). -/
def peekWord (m : Mem) (al : Nat) : Nat :=
  (m al).val + (m (al + 1)).val * 256 + (m (al + 2)).val * 65536 +
  (m (al + 3)).val * 16777216 + (m (al + 4)).val * 4294967296 +
  (m (al + 5)).val * 1099511627776 + (m (al + 6)).val * 281474976710656 +
  (m (al + 7)).val * 72057594037927936

/-- `word & !(0xff << (8 * off))`: the word with byte `off` cleared. -/
def maskedWord (w off : Nat) : Nat := w - byteAt w off * 256 ^ off

/-- `masked_word | ((byte as u64) << (8 * off))`; the `u8` cast is `% 256`. -/
def updatedWord (w off b : Nat) : Nat := maskedWord w off + b % 256 * 256 ^ off

/-- POKEDATA of `w` at `al`: the eight bytes of `w` replace `mem[al..al+8]`. -/
def pokeWord (m : Mem) (al w : Nat) : Mem := fun x =>
  if al ≤ x ∧ x < al + 8 then ⟨byteAt w (x - al), Nat.mod_lt _ (by norm_num)⟩ else m x

/-- `struct Breakpoint` of `src/target.rs`. -/
structure Breakpoint where
  address : Nat
  idx : Nat
  original_byte : Nat
  set_on_continue : Bool
deriving DecidableEq

/-- The debugger-visible part of `struct Target`: tracee memory together
with its ptrace accessibility, the `rip` register, and the breakpoint
bookkeeping.  `pid`, the executable path and the DWARF data play no role
in the claims about the breakpoint engine. -/
structure TState where
  mem : Mem
  valid : Nat → Bool
  rip : Nat
  next_bp_num : Nat
  breakpoints : List (Nat × Breakpoint)

/-- Abstraction of the `println!` lines the breakpoint operations emit. -/
inductive OutEvent where
  | bpAlreadyExists (idx addr : Nat)
  | bpSet (idx : Nat)
  | bpDeleted (idx : Nat)
  | noRestoreInfo (addr : Nat)
deriving DecidableEq

/-- `ptrace::read` (PEEKDATA): the word at `a`, failing iff `a` is not
accessible. -/
def ptraceRead (s : TState) (a : Nat) : Option Nat :=
  if s.valid a then some (peekWord s.mem a) else none

/-- `Target::write_byte`: peek the aligned word, extract the old byte,
splice in the new one, poke the word back.  Returns the old byte and the
new memory (`write_byte` takes `&self`: it only touches tracee memory). -/
def write_byte (s : TState) (addr b : Nat) : Except Unit (Nat × Mem) :=
  let aligned_addr := align_addr_to_word addr
  let byte_offset := addr - aligned_addr
  match ptraceRead s aligned_addr with
  | none => .error ()
  | some word =>
    let orig_byte := byteAt word byte_offset
    .ok (orig_byte, pokeWord s.mem aligned_addr (updatedWord word byte_offset b))

/-- `Target::set_breakpoint`.  The `HashMap::insert` is modelled with
replace semantics (cons plus erase of the key); it only runs when the key
is absent. -/
def set_breakpoint (s : TState) (addr : Nat) :
    (Except Unit Unit) × TState × List OutEvent :=
  match List.lookup addr s.breakpoints with
  | some bp => (.ok (), s, [.bpAlreadyExists bp.idx addr])
  | none =>
    let bp_idx := s.next_bp_num
    let s1 : TState := { s with next_bp_num := (s.next_bp_num + 1) % 2 ^ 32 }
    match write_byte s1 addr 0xCC with
    | .error e => (.error e, s1, [])
    | .ok (old_byte, mem') =>
      let bp : Breakpoint :=
        { address := addr, idx := bp_idx, original_byte := old_byte, set_on_continue := false }
      let bps := (addr, bp) :: s1.breakpoints.filter (fun p => !(p.1 == addr))
      (.ok (), { s1 with mem := mem', breakpoints := bps }, [.bpSet bp_idx])

/-- `Target::restore_breakpoint`.  Note the source discards the
`write_byte` error with `.ok()`, so this never fails. -/
def restore_breakpoint (s : TState) (addr : Nat) : Bool × TState × List OutEvent :=
  match List.lookup addr s.breakpoints with
  | some bp =>
    match write_byte s addr bp.original_byte with
    | .ok (_, mem') => (true, { s with mem := mem' }, [])
    | .error _ => (true, s, [])
  | none => (false, s, [.noRestoreInfo addr])

/-- `Target::delete_breakpoint`.  The `.remove(&addr).expect(..)` cannot
panic: `restore_breakpoint` returned `true` only when the key is present. -/
def delete_breakpoint (s : TState) (addr : Nat) :
    (Except Unit Unit) × TState × List OutEvent :=
  match restore_breakpoint s addr with
  | (true, s', ev) =>
    let idx := ((List.lookup addr s'.breakpoints).map Breakpoint.idx).getD 0
    (.ok (), { s' with
        breakpoints := s'.breakpoints.filter (fun p => !(p.1 == addr)) },
      ev ++ [.bpDeleted idx])
  | (false, s', ev) => (.ok (), s', ev)

/-- The re-arm loop of `Target::cont`: for every breakpoint with
`set_on_continue`, write back 0xCC (`?` aborts on error) and then assign
`need_single_step = *addr == rip`. -/
def contArm (rip : Nat) :
    List (Nat × Breakpoint) → TState → Bool → (Except Unit Bool) × TState
  | [], s, need_single_step => (.ok need_single_step, s)
  | (addr, bp) :: rest, s, need_single_step =>
    if bp.set_on_continue then
      match write_byte s addr 0xCC with
      | .error e => (.error e, s)
      | .ok (_, mem') => contArm rip rest { s with mem := mem' } (addr == rip)
    else contArm rip rest s need_single_step

/-- `Target::cont`: re-arm hit breakpoints, clear all `set_on_continue`
flags, single-step once if the last re-armed address equalled `rip`, then
PTRACE_CONT.  The single step, its raw `wait` and the final PTRACE_CONT
only run the tracee (modelled by `Reach.tracee_runs`); the returned Bool
records whether the single step was performed. -/
def cont (s : TState) : (Except Unit Bool) × TState :=
  match contArm s.rip s.breakpoints s false with
  | (.error e, s') => (.error e, s')
  | (.ok need_single_step, s') =>
    let bps := s'.breakpoints.map (fun p => (p.1, { p.2 with set_on_continue := false }))
    (.ok need_single_step, { s' with breakpoints := bps })

/-- The `nix` wait status, restricted to what `Target::wait` inspects. -/
inductive WStatus where
  | stopped (sig : Nat)
  | exited (code : Nat)
  | other
deriving DecidableEq

def SIGTRAP : Nat := 5

/-- The in-place `breakpoint.set_on_continue = true` of `Target::wait`
through `get_mut(&rip)`: flag the entry keyed `k`. -/
def markHit (k : Nat) (l : List (Nat × Breakpoint)) : List (Nat × Breakpoint) :=
  l.map fun p => if p.1 == k then (p.1, { p.2 with set_on_continue := true }) else p

/-- `regs.rip -= 1` on a `u64`. -/
def dec_rip_u64 (r : Nat) : Nat := (r + (2 ^ 64 - 1)) % 2 ^ 64

/-- `Target::wait`: on a SIGTRAP stop, decrement the (u64) `rip` copy; if
a breakpoint lives at that address, mark it `set_on_continue` and write
the adjusted registers back; then, if still present, restore its original
byte.  The blocking `wait` itself is the `status` argument; the
diagnostics printed by `restore_breakpoint` are dropped here. -/
def wait (s : TState) (status : WStatus) : TState × WStatus :=
  match status with
  | .stopped sig =>
    if sig = SIGTRAP then
      let rip1 := dec_rip_u64 s.rip
      let s1 :=
        match List.lookup rip1 s.breakpoints with
        | some _ => { s with rip := rip1, breakpoints := markHit rip1 s.breakpoints }
        | none => s
      let s2 :=
        match List.lookup rip1 s1.breakpoints with
        | some bp => (restore_breakpoint s1 bp.address).2.1
        | none => s1
      (s2, status)
    else (s, status)
  | _ => (s, status)

/-- `Target::read_bytes`: peeks the single aligned word containing `addr`
(`?` propagates a peek failure), prints the word and its bytes, ignores
`_amount`, and returns `Ok(vec![])`. -/
def read_bytes (s : TState) (addr _amount : Nat) : Except Unit (List Nat) :=
  let aligned_addr := align_addr_to_word addr
  match ptraceRead s aligned_addr with
  | none => .error ()
  | some _word => .ok []

/-- `Target::create`, restricted to the state the breakpoint engine uses:
fresh breakpoint map and counter over an arbitrary tracee. -/
def target_create (mem : Mem) (valid : Nat → Bool) (rip : Nat) : TState :=
  { mem := mem, valid := valid, rip := rip, next_bp_num := 0, breakpoints := [] }

/-- States reachable from a fresh `Target` by the breakpoint-engine
operations; `tracee_runs` stands for tracee execution between commands
(the tracee does not write its own text). -/
inductive Reach : TState → Prop where
  | create : ∀ (mem : Mem) (valid : Nat → Bool) (rip : Nat),
      Reach (target_create mem valid rip)
  | set_bp : ∀ (s : TState) (a : Nat), Reach s → Reach (set_breakpoint s a).2.1
  | del_bp : ∀ (s : TState) (a : Nat), Reach s → Reach (delete_breakpoint s a).2.1
  | do_cont : ∀ (s : TState), Reach s → Reach (cont s).2
  | do_wait : ∀ (s : TState) (st : WStatus), Reach s → Reach (wait s st).1
  | tracee_runs : ∀ (s : TState) (r : Nat), Reach s → Reach { s with rip := r }

/-- Per-entry invariant: the stored address mirrors the key, the saved
byte is a byte, the word is pokeable, and the tracee byte agrees with the
`set_on_continue` state machine. -/
def BpEntryOk (s : TState) (p : Nat × Breakpoint) : Prop :=
  p.2.address = p.1 ∧ p.2.original_byte < 256 ∧
  s.valid (align_addr_to_word p.1) = true ∧
  (p.2.set_on_continue = false → (s.mem p.1).val = 0xCC) ∧
  (p.2.set_on_continue = true → (s.mem p.1).val = p.2.original_byte)

/-- Invariant of reachable targets: breakpoint keys are unique and every
entry satisfies `BpEntryOk`. -/
def Inv (s : TState) : Prop :=
  (s.breakpoints.map Prod.fst).Nodup ∧ ∀ p ∈ s.breakpoints, BpEntryOk s p

def byteCC : Fin 256 := ⟨0xCC, by norm_num⟩

/-- Invariant I1 exactly as the claim words it (both directions of each
equivalence). -/
abbrev ClaimedI1 (s : TState) : Prop :=
  ∀ p ∈ s.breakpoints,
    ((s.mem p.2.address).val = 0xCC ↔ p.2.set_on_continue = false) ∧
    ((s.mem p.2.address).val = p.2.original_byte ↔ p.2.set_on_continue = true)

/-- `util::add_offset`: `checked_sub`/`checked_add` on `usize`, `None`
models the `.expect("Error during add_offset")` panic. -/
def add_offset (address : Nat) (offset : Int) : Option Nat :=
  if offset < 0 then
    if offset.natAbs ≤ address then some (address - offset.natAbs) else none
  else
    if address + offset.toNat < 2 ^ 64 then some (address + offset.toNat) else none

/-- `Target::get_offset_from_cfa`: `cfa = rbp + 16`, then `add_offset`. -/
def get_offset_from_cfa (rbp : Nat) (offset : Int) : Option Nat :=
  add_offset (rbp + 16) offset

/-- Lowercase hexadecimal digits of `n`, no leading zeros. -/
def hex_string (n : Nat) : String := String.mk (Nat.toDigits 16 n)

/-- The Rust format `{:#18x}`: `0x`-prefixed lowercase hex, left padded
with SPACES to a minimum width of 18 characters. -/
def rust_format_hex_hash18 (v : Nat) : String :=
  let core := "0x" ++ hex_string v
  String.mk (List.replicate (18 - core.length) ' ') ++ core

/-- The Rust format `{:#018x}` the spec quotes: `0x`-prefixed lowercase
hex, zero padded after the prefix to a total width of 18 characters. -/
def rust_format_hex_hash018 (v : Nat) : String :=
  let digits := hex_string v
  "0x" ++ String.mk (List.replicate (16 - digits.length) '0') ++ digits

/-- `Target::print_local`.  The `type_byte_size` parameter stands for
`self.debug_info.dwarf_info.get_type_byte_size`; `none` results model the
panics of `add_offset` and of the `.expect` on the byte size.  The peek
uses `.unwrap_or(0)`.  `checked_shl(8 * size)` is `None` iff the shift is
at least 64; masking with `!0` leaves the `u64` (always below `2 ^ 64`)
unchanged, masking with `(1 << k) - 1` is `% 2 ^ k`. -/
def print_local (s : TState) (type_byte_size : Nat → Option Nat)
    (rbp : Nat) (fbreg_offset : Int) (t : Nat) (name : String) : Option String :=
  match get_offset_from_cfa rbp fbreg_offset with
  | none => none
  | some val_addr =>
    match type_byte_size t with
    | none => none
    | some val_size =>
      let val := (ptraceRead s val_addr).getD 0
      let val2 := if 8 * val_size < 64 then val % 2 ^ (8 * val_size) else val
      some (name ++ " = " ++ rust_format_hex_hash18 val2)

/-- `enum ReplCommand` of `src/replcommand.rs`. -/
inductive ReplCommand where
  | Start
  | Continue
  | Exit
  | Unknown
  | SetBp (addr : Nat)
  | SetBpName (name : String)
  | DeleteBp (addr : Nat)
  | ListBps
  | GetRegs
  | SingleStep
  | Backtrace
  | Frame
  | GetVar
deriving DecidableEq

/-- Rust `char::to_digit(16)`: ASCII `0-9`, `a-f`, `A-F`. -/
def to_digit16 (c : Char) : Option Nat :=
  if 48 ≤ c.toNat ∧ c.toNat ≤ 57 then some (c.toNat - 48)
  else if 97 ≤ c.toNat ∧ c.toNat ≤ 102 then some (c.toNat - 97 + 10)
  else if 65 ≤ c.toNat ∧ c.toNat ≤ 70 then some (c.toNat - 65 + 10)
  else none

/-- The digit loop of `usize::from_str_radix(s, 16)` (64-bit `usize`):
`checked_mul(16)` then `checked_add(d)`, overflow combined into the
single test `acc * 16 + d < 2 ^ 64`. -/
def from_str_radix_loop (acc : Nat) : List Char → Option Nat
  | [] => some acc
  | c :: cs =>
    match to_digit16 c with
    | none => none
    | some d =>
      if acc * 16 + d < 2 ^ 64 then from_str_radix_loop (acc * 16 + d) cs else none

/-- The digit loop for a `-`-signed unsigned parse: `checked_mul(16)` then
`checked_sub(d)`; starting from 0 only strings of zero digits survive. -/
def from_str_radix_neg_loop (acc : Nat) : List Char → Option Nat
  | [] => some acc
  | c :: cs =>
    match to_digit16 c with
    | none => none
    | some d =>
      if acc * 16 < 2 ^ 64 ∧ d ≤ acc * 16 then from_str_radix_neg_loop (acc * 16 - d) cs
      else none

/-- `usize::from_str_radix(s, 16)`: optional sign, then a nonempty digit
string. -/
def usize_from_str_radix_16 (cs : List Char) : Option Nat :=
  let stripped : Bool × List Char :=
    match cs with
    | c :: rest =>
      if c = '+' then (false, rest)
      else if c = '-' then (true, rest)
      else (false, c :: rest)
    | [] => (false, [])
  if stripped.2 = [] then none
  else if stripped.1 = true then from_str_radix_neg_loop 0 stripped.2
  else from_str_radix_loop 0 stripped.2

/-- `replcommand::parse_address`: strip a leading `0x` or `0X` (the source
lowercases a copy for the test, then slices the original after it), then
`usize::from_str_radix(.., 16)`. -/
def parse_address (addr : String) : Option Nat :=
  let addr_without_0x :=
    match addr.data with
    | c0 :: c1 :: rest =>
      if c0 = '0' ∧ (c1 = 'x' ∨ c1 = 'X') then rest else addr.data
    | _ => addr.data
  usize_from_str_radix_16 addr_without_0x

/-- A character is a hex digit iff Rust `to_digit(16)` accepts it. -/
def isHexDigitChar (c : Char) : Bool := (to_digit16 c).isSome

/-- The two-token `b <arg>` dispatch inside `get_command`: a parsed
address gives `SetBp`, otherwise `SetBpName`. -/
def bp_arg_command (arg : String) : ReplCommand :=
  match parse_address arg with
  | some parsed_addr => .SetBp parsed_addr
  | none => .SetBpName arg

/-- The numeric value of a hex digit string (used to state what
`from_str_radix` computes). -/
def hexVal (cs : List Char) : Nat :=
  cs.foldl (fun a c => a * 16 + (to_digit16 c).getD 0) 0

/-- `str::trim` (ASCII whitespace suffices for the REPL). -/
def trimChars (cs : List Char) : List Char :=
  ((cs.dropWhile Char.isWhitespace).reverse.dropWhile Char.isWhitespace).reverse

/-- Rust `split(sep)`: all fragments, empty ones included. -/
def splitOnChar (sep : Char) : List Char → List (List Char)
  | [] => [[]]
  | c :: rest =>
    if c = sep then [] :: splitOnChar sep rest
    else
      match splitOnChar sep rest with
      | [] => [[c]]
      | p :: ps => (c :: p) :: ps

/-- `replcommand::get_command` on one input line: keyword match on the
trimmed input, then the `b`/`rb` fallthroughs on the RAW input prefix. -/
def get_command (input : String) : ReplCommand :=
  let trimmed := trimChars input.data
  if trimmed = "cont".data then .Continue
  else if trimmed = "r".data then .Continue
  else if trimmed = "exit".data then .Exit
  else if trimmed = "e".data then .Exit
  else if trimmed = "regs".data then .GetRegs
  else if trimmed = "s".data then .SingleStep
  else if trimmed = "lsb".data then .ListBps
  else if trimmed = "back".data then .Backtrace
  else if trimmed = "frame".data then .Frame
  else if trimmed = "f".data then .Frame
  else if trimmed = "get".data then .GetVar
  else if input.data.head? = some 'b' then
    let parts := splitOnChar ' ' trimmed
    if parts.length = 2 then bp_arg_command (String.mk (parts.getD 1 []))
    else .Unknown
  else if input.data.take 2 = ['r', 'b'] then
    let parts := splitOnChar ' ' trimmed
    if parts.length = 2 then
      match parse_address (String.mk (parts.getD 1 [])) with
      | some parsed_addr => .DeleteBp parsed_addr
      | none => .Unknown
    else .Unknown
  else .Unknown

/-- Outcome of running a fallible function: distinguishes a returned
`Err` from a panic, since `util::get_base_address` panics on every
failure path and never returns `Err`. -/
inductive RunResult (α : Type) where
  | ok (v : α)
  | panicked (msg : String)
  | errored
deriving DecidableEq

/-- `util::get_base_address(pid)`.  The input is the readable content of
`/proc/<pid>/maps` (`none` when the file cannot be opened, otherwise its
lines).  `File::open(..).expect(..)`, `lines().next().unwrap()` and
`from_str_radix(..).unwrap()` all panic; the first token before a dash is
`parts[0]` of `line.split("-")`. -/
def get_base_address (file : Option (List String)) : RunResult Nat :=
  match file with
  | none => .panicked "Could not open maps"
  | some lines =>
    match lines with
    | [] => .panicked "maps file has no first line"
    | line :: _ =>
      let part0 := line.data.takeWhile (fun c => c ≠ '-')
      match usize_from_str_radix_16 part0 with
      | some v => .ok v
      | none => .panicked "from_str_radix failed"

/-- `Result::unwrap_or(0)`: a returned error becomes 0, a panic still
propagates. -/
def unwrap_or_zero : RunResult Nat → RunResult Nat
  | .ok v => .ok v
  | .panicked m => .panicked m
  | .errored => .ok 0

/-- The `base_address: get_base_address(pid).unwrap_or(0)` field
initializer of `Target::create`. -/
def create_base_address (file : Option (List String)) : RunResult Nat :=
  unwrap_or_zero (get_base_address file)

/-- Concrete tracee memories and access maps for witnesses. -/
def mem90 : Mem := fun _ => ⟨0x90, by norm_num⟩

def memCC : Mem := fun _ => byteCC

def mem2a : Mem := fun a => if a = 96 then ⟨0x2a, by norm_num⟩ else ⟨0, by norm_num⟩

def allValid : Nat → Bool := fun _ => true

def noValid : Nat → Bool := fun _ => false

/-- Only addresses below 100 are pokeable. -/
def lowValid : Nat → Bool := fun a => decide (a < 100)

/-- A breakpoint set where the instruction byte already was 0xCC. -/
def c1CexState : TState := (set_breakpoint (target_create memCC allValid 0) 0).2.1

/-- Two breakpoints with `set_on_continue`, the one at the current `rip`
iterated first. -/
def c2State : TState :=
  { mem := mem90, valid := allValid, rip := 4096, next_bp_num := 2,
    breakpoints := [(4096, ⟨4096, 0, 0x55, true⟩), (4200, ⟨4200, 1, 0x66, true⟩)] }

/-- Reachable state with a breakpoint at 4 and `rip = 5` (as after the
INT3 at 4 trapped). -/
def c3WitState : TState :=
  { (set_breakpoint (target_create mem90 allValid 5) 4).2.1 with rip := 5 }

/-- A breakpoint entry over memory that refuses pokes. -/
def c9State : TState :=
  { mem := mem90, valid := noValid, rip := 0, next_bp_num := 1,
    breakpoints := [(64, ⟨64, 0, 0x90, false⟩)] }

def c7State : TState := target_create mem2a allValid 0

/-- A type table giving every type byte size 4. -/
def ts4 : Nat → Option Nat := fun _ => some 4

theorem byteAt_peekWord (m : Mem) (al i : Nat) (h : i < 8) :
    byteAt (peekWord m al) i = (m (al + i)).val := by
  have h0 := (m al).isLt
  have h1 := (m (al + 1)).isLt
  have h2 := (m (al + 2)).isLt
  have h3 := (m (al + 3)).isLt
  have h4 := (m (al + 4)).isLt
  have h5 := (m (al + 5)).isLt
  have h6 := (m (al + 6)).isLt
  have h7 := (m (al + 7)).isLt
  unfold byteAt peekWord
  interval_cases i <;> norm_num <;> omega

theorem byteAt_updatedWord (w off b j : Nat) (hoff : off < 8) (hj : j < 8) :
    byteAt (updatedWord w off b) j = if j = off then b % 256 else byteAt w j := by
  have hb : b % 256 < 256 := Nat.mod_lt _ (by norm_num)
  unfold updatedWord maskedWord byteAt
  interval_cases off <;> interval_cases j <;> norm_num <;> omega

theorem align_le (a : Nat) : align_addr_to_word a ≤ a := by
  unfold align_addr_to_word; omega

theorem lt_align_add_eight (a : Nat) : a < align_addr_to_word a + 8 := by
  unfold align_addr_to_word; omega

/-- Successful `write_byte` returns the old byte at `addr` and updates
exactly that byte. -/
theorem write_byte_ok (s : TState) (a b : Nat) (hb : b < 256)
    (hv : s.valid (align_addr_to_word a) = true) :
    write_byte s a b =
      .ok ((s.mem a).val, fun x => if x = a then ⟨b, hb⟩ else s.mem x) := by
  have hoff : a - align_addr_to_word a < 8 := by
    unfold align_addr_to_word; omega
  have hala : align_addr_to_word a + (a - align_addr_to_word a) = a := by
    unfold align_addr_to_word; omega
  simp only [write_byte, ptraceRead, hv, if_true, Except.ok.injEq, Prod.mk.injEq]
  constructor
  · rw [byteAt_peekWord _ _ _ hoff, hala]
  · funext x
    unfold pokeWord
    by_cases hx : align_addr_to_word a ≤ x ∧ x < align_addr_to_word a + 8
    · rw [if_pos hx]
      have hj : x - align_addr_to_word a < 8 := by omega
      by_cases hxa : x = a
      · subst hxa
        rw [if_pos rfl]
        apply Fin.ext
        simp only [byteAt_updatedWord _ _ _ _ hoff hj, if_pos (by omega : x - align_addr_to_word x = x - align_addr_to_word x)]
        have : x - align_addr_to_word x = x - align_addr_to_word x := rfl
        simp [Nat.mod_eq_of_lt hb]
      · rw [if_neg hxa]
        apply Fin.ext
        have hne : x - align_addr_to_word a ≠ a - align_addr_to_word a := by omega
        simp only [byteAt_updatedWord _ _ _ _ hoff hj, if_neg hne]
        rw [byteAt_peekWord _ _ _ hj]
        have hax : align_addr_to_word a + (x - align_addr_to_word a) = x := by omega
        rw [hax]
    · rw [if_neg hx]
      have hxa : x ≠ a := by
        intro h
        subst h
        exact hx ⟨align_le x, lt_align_add_eight x⟩
      rw [if_neg hxa]

/-- Failing `write_byte` (inaccessible word) changes nothing. -/
theorem write_byte_err (s : TState) (a b : Nat)
    (hv : s.valid (align_addr_to_word a) = false) :
    write_byte s a b = .error () := by
  simp [write_byte, ptraceRead, hv]

theorem lookup_mem {α β : Type} [BEq α] [LawfulBEq α] {l : List (α × β)} {k : α} {v : β}
    (h : List.lookup k l = some v) : (k, v) ∈ l := by
  induction l with
  | nil => simp [List.lookup] at h
  | cons p t ih =>
    obtain ⟨k', v'⟩ := p
    simp only [List.lookup] at h
    split at h
    · rename_i hq
      have hk : k = k' := eq_of_beq (by simpa using hq)
      cases h
      simp [hk]
    · exact List.mem_cons_of_mem _ (ih h)

theorem lookup_none {α β : Type} [BEq α] [LawfulBEq α] {l : List (α × β)} {k : α}
    (h : List.lookup k l = none) : ∀ p ∈ l, p.1 ≠ k := by
  induction l with
  | nil => simp
  | cons p t ih =>
    obtain ⟨k', v'⟩ := p
    simp only [List.lookup] at h
    split at h
    · cases h
    · rename_i hq
      intro q hq'
      rcases List.mem_cons.mp hq' with h1 | h1
      · subst h1
        intro he
        simp [he.symm] at hq
      · exact ih h q h1

theorem lookup_cons_self {α β : Type} [BEq α] [LawfulBEq α] (l : List (α × β)) (k : α) (v : β) :
    List.lookup k ((k, v) :: l) = some v := by
  simp [List.lookup]

/-- `set_breakpoint` on an existing breakpoint only prints. -/
theorem set_breakpoint_present (s : TState) (a : Nat) (bp : Breakpoint)
    (hl : List.lookup a s.breakpoints = some bp) :
    set_breakpoint s a = (.ok (), s, [.bpAlreadyExists bp.idx a]) := by
  simp [set_breakpoint, hl]

/-- `set_breakpoint` on a fresh address whose word is not pokeable:
the error propagates, no entry is inserted, but the counter has already
been bumped. -/
theorem set_breakpoint_absent_err (s : TState) (a : Nat)
    (hl : List.lookup a s.breakpoints = none)
    (hv : s.valid (align_addr_to_word a) = false) :
    set_breakpoint s a =
      (.error (), { s with next_bp_num := (s.next_bp_num + 1) % 2 ^ 32 }, []) := by
  have hw := write_byte_err { s with next_bp_num := (s.next_bp_num + 1) % 2 ^ 32 } a 0xCC hv
  simp only [set_breakpoint, hl]
  rw [hw]

theorem byteCC_val : byteCC.val = 204 := rfl

/-- Successful `set_breakpoint` on a fresh address: 0xCC is planted, the
old byte is recorded, the counter is bumped. -/
theorem set_breakpoint_absent_ok (s : TState) (a : Nat)
    (hl : List.lookup a s.breakpoints = none)
    (hv : s.valid (align_addr_to_word a) = true) :
    set_breakpoint s a =
      (.ok (), { mem := fun x => if x = a then byteCC else s.mem x,
                 valid := s.valid, rip := s.rip,
                 next_bp_num := (s.next_bp_num + 1) % 2 ^ 32,
                 breakpoints := (a, ⟨a, s.next_bp_num, (s.mem a).val, false⟩) ::
                   s.breakpoints.filter (fun p => !(p.1 == a)) },
        [.bpSet s.next_bp_num]) := by
  have hw := write_byte_ok { s with next_bp_num := (s.next_bp_num + 1) % 2 ^ 32 } a 0xCC
    (by norm_num) hv
  simp only [set_breakpoint, hl]
  rw [hw]
  rfl

/-- `restore_breakpoint` with no entry at the address. -/
theorem restore_breakpoint_absent (s : TState) (a : Nat)
    (hl : List.lookup a s.breakpoints = none) :
    restore_breakpoint s a = (false, s, [.noRestoreInfo a]) := by
  simp [restore_breakpoint, hl]

/-- `restore_breakpoint` writing back a recorded byte successfully. -/
theorem restore_breakpoint_ok (s : TState) (a : Nat) (bp : Breakpoint)
    (hl : List.lookup a s.breakpoints = some bp)
    (hb : bp.original_byte < 256)
    (hv : s.valid (align_addr_to_word a) = true) :
    restore_breakpoint s a =
      (true, { s with mem := fun x => if x = a then ⟨bp.original_byte, hb⟩ else s.mem x },
        []) := by
  have hw := write_byte_ok s a bp.original_byte hb hv
  simp [restore_breakpoint, hl, hw]

/-- `restore_breakpoint` whose write fails: the error is discarded by
`.ok()` and the tracee memory keeps the 0xCC byte. -/
theorem restore_breakpoint_err (s : TState) (a : Nat) (bp : Breakpoint)
    (hl : List.lookup a s.breakpoints = some bp)
    (hv : s.valid (align_addr_to_word a) = false) :
    restore_breakpoint s a = (true, s, []) := by
  have hw := write_byte_err s a bp.original_byte hv
  simp [restore_breakpoint, hl, hw]

/-- `delete_breakpoint` with no entry at the address only prints. -/
theorem delete_breakpoint_absent (s : TState) (a : Nat)
    (hl : List.lookup a s.breakpoints = none) :
    delete_breakpoint s a = (.ok (), s, [.noRestoreInfo a]) := by
  rw [delete_breakpoint, restore_breakpoint_absent s a hl]

/-- `delete_breakpoint` of a present entry with a pokeable word: the byte
is restored and the entry removed. -/
theorem delete_breakpoint_present_ok (s : TState) (a : Nat) (bp : Breakpoint)
    (hl : List.lookup a s.breakpoints = some bp)
    (hb : bp.original_byte < 256)
    (hv : s.valid (align_addr_to_word a) = true) :
    delete_breakpoint s a =
      (.ok (), { mem := fun x => if x = a then ⟨bp.original_byte, hb⟩ else s.mem x,
                 valid := s.valid, rip := s.rip, next_bp_num := s.next_bp_num,
                 breakpoints := s.breakpoints.filter (fun p => !(p.1 == a)) },
        [.bpDeleted bp.idx]) := by
  rw [delete_breakpoint, restore_breakpoint_ok s a bp hl hb hv]
  simp [hl]

/-- `delete_breakpoint` of a present entry whose word is not pokeable:
the write error is discarded, the entry is removed anyway and the call
reports success. -/
theorem delete_breakpoint_present_err (s : TState) (a : Nat) (bp : Breakpoint)
    (hl : List.lookup a s.breakpoints = some bp)
    (hv : s.valid (align_addr_to_word a) = false) :
    delete_breakpoint s a =
      (.ok (), { s with breakpoints := s.breakpoints.filter (fun p => !(p.1 == a)) },
        [.bpDeleted bp.idx]) := by
  rw [delete_breakpoint, restore_breakpoint_err s a bp hl hv]
  simp [hl]

/-- The re-arm loop succeeds when every flagged entry is pokeable; it
re-arms exactly the flagged addresses and touches nothing else. -/
theorem contArm_ok (rip : Nat) (l : List (Nat × Breakpoint)) (s : TState) (nss : Bool)
    (hval : ∀ p ∈ l, p.2.set_on_continue = true →
      s.valid (align_addr_to_word p.1) = true) :
    ∃ nss' s', contArm rip l s nss = (.ok nss', s') ∧
      s'.valid = s.valid ∧ s'.rip = s.rip ∧ s'.next_bp_num = s.next_bp_num ∧
      s'.breakpoints = s.breakpoints ∧
      ∀ x, s'.mem x =
        if l.any (fun p => p.1 == x && p.2.set_on_continue) then byteCC
        else s.mem x := by
  induction l generalizing s nss with
  | nil => exact ⟨nss, s, rfl, rfl, rfl, rfl, rfl, fun x => by simp⟩
  | cons hd t ih =>
    obtain ⟨addr, bp⟩ := hd
    by_cases hf : bp.set_on_continue = true
    · have hv : s.valid (align_addr_to_word addr) = true :=
        hval (addr, bp) (List.mem_cons_self _ _) hf
      have hw := write_byte_ok s addr 0xCC (by norm_num) hv
      have hval' : ∀ p ∈ t, p.2.set_on_continue = true →
          ({ s with mem := fun x => if x = addr then byteCC else s.mem x } : TState).valid
            (align_addr_to_word p.1) = true :=
        fun q hq hqf => hval q (List.mem_cons_of_mem _ hq) hqf
      obtain ⟨nss', s', heq, h1, h2, h3, h4, h5⟩ :=
        ih { s with mem := fun x => if x = addr then byteCC else s.mem x } (addr == rip) hval'
      refine ⟨nss', s', ?_, h1, h2, h3, h4, ?_⟩
      · simp only [contArm, hf, if_true]
        rw [hw]
        exact heq
      · intro x
        rw [h5 x]
        by_cases hta : t.any (fun p => p.1 == x && p.2.set_on_continue) = true
        · simp [hta, List.any_cons]
        · by_cases hx : x = addr
          · subst hx
            simp [hta, List.any_cons, hf]
          · have : ¬(addr == x && bp.set_on_continue) = true := by
              simp only [Bool.and_eq_true, beq_iff_eq]
              intro hc
              exact hx hc.1.symm
            simp only [List.any_cons, Bool.or_eq_true, hta, or_false, this,
              if_false, Bool.not_eq_true] at *
            simp [hx, hta, this]
    · have hfb : bp.set_on_continue = false := by
        cases hb : bp.set_on_continue
        · rfl
        · exact absurd hb hf
      have hval' : ∀ p ∈ t, p.2.set_on_continue = true →
          s.valid (align_addr_to_word p.1) = true :=
        fun q hq hqf => hval q (List.mem_cons_of_mem _ hq) hqf
      obtain ⟨nss', s', heq, h1, h2, h3, h4, h5⟩ := ih s nss hval'
      refine ⟨nss', s', ?_, h1, h2, h3, h4, ?_⟩
      · simp only [contArm, hfb]
        simpa using heq
      · intro x
        rw [h5 x]
        simp only [List.any_cons, hfb, Bool.and_false, Bool.false_or]

/-- `cont` under the validity part of the invariant: it never fails, all
flags are cleared, flagged addresses are re-armed with 0xCC, and nothing
else changes. -/
theorem cont_ok (s : TState)
    (hval : ∀ p ∈ s.breakpoints, p.2.set_on_continue = true →
      s.valid (align_addr_to_word p.1) = true) :
    ∃ nss s', cont s = (.ok nss, s') ∧
      s'.valid = s.valid ∧ s'.rip = s.rip ∧ s'.next_bp_num = s.next_bp_num ∧
      s'.breakpoints =
        s.breakpoints.map (fun p => (p.1, { p.2 with set_on_continue := false })) ∧
      ∀ x, s'.mem x =
        if s.breakpoints.any (fun p => p.1 == x && p.2.set_on_continue) then byteCC
        else s.mem x := by
  obtain ⟨nss, s1, heq, h1, h2, h3, h4, h5⟩ := contArm_ok s.rip s.breakpoints s false hval
  let bps2 := s1.breakpoints.map (fun p => (p.1, { p.2 with set_on_continue := false }))
  refine ⟨nss, { s1 with breakpoints := bps2 }, ?_, h1, h2, h3, ?_, h5⟩
  · unfold cont
    rw [heq]
  · simp only [bps2, h4]

theorem lookup_cons_ne {α β : Type} [BEq α] (k k' : α) (v : β) (l : List (α × β))
    (h : (k == k') = false) :
    List.lookup k ((k', v) :: l) = List.lookup k l := by
  simp [List.lookup, h]

/-- The flag update commutes with lookup at the flagged key. -/
theorem lookup_markHit (k : Nat) (l : List (Nat × Breakpoint)) :
    List.lookup k (markHit k l) =
      (List.lookup k l).map (fun b => { b with set_on_continue := true }) := by
  induction l with
  | nil => rfl
  | cons hd t ih =>
    obtain ⟨k', v⟩ := hd
    by_cases hk : k' = k
    · subst hk
      have e1 : markHit k' ((k', v) :: t) =
          (k', { v with set_on_continue := true }) :: markHit k' t := by
        simp [markHit]
      rw [e1, lookup_cons_self, lookup_cons_self]
      rfl
    · have e1 : markHit k ((k', v) :: t) = (k', v) :: markHit k t := by
        simp [markHit, hk]
      have hb : (k == k') = false := by simp [Ne.symm hk]
      rw [e1, lookup_cons_ne _ _ _ _ hb, lookup_cons_ne _ _ _ _ hb, ih]

/-- The flag update does not change the keys. -/
theorem markHit_keys (k : Nat) (l : List (Nat × Breakpoint)) :
    (markHit k l).map Prod.fst = l.map Prod.fst := by
  unfold markHit
  rw [List.map_map]
  apply List.map_congr_left
  intro p _
  by_cases h : p.1 == k <;> simp [h, Function.comp]

/-- `wait` on a SIGTRAP stop whose decremented pc hits a breakpoint:
registers are written back with `rip` on the breakpoint, the entry is
flagged, the original byte is restored. -/
theorem wait_hit (s : TState) (bp : Breakpoint)
    (hl : List.lookup (dec_rip_u64 s.rip) s.breakpoints = some bp)
    (haddr : bp.address = dec_rip_u64 s.rip)
    (hb : bp.original_byte < 256)
    (hv : s.valid (align_addr_to_word (dec_rip_u64 s.rip)) = true) :
    wait s (.stopped SIGTRAP) =
      ({ mem := fun x => if x = dec_rip_u64 s.rip
             then ⟨bp.original_byte, hb⟩ else s.mem x,
         valid := s.valid, rip := dec_rip_u64 s.rip,
         next_bp_num := s.next_bp_num,
         breakpoints := markHit (dec_rip_u64 s.rip) s.breakpoints },
        .stopped SIGTRAP) := by
  have hl2 := lookup_markHit (dec_rip_u64 s.rip) s.breakpoints
  rw [hl, Option.map_some'] at hl2
  have hr := restore_breakpoint_ok
    ⟨s.mem, s.valid, dec_rip_u64 s.rip, s.next_bp_num,
      markHit (dec_rip_u64 s.rip) s.breakpoints⟩
    (dec_rip_u64 s.rip) { bp with set_on_continue := true } hl2 hb hv
  simp only [wait, eq_self_iff_true, if_true, hl, hl2, haddr]
  rw [hr]

/-- `wait` on a SIGTRAP stop with no breakpoint at `rip - 1`: nothing is
written back and the state is unchanged. -/
theorem wait_miss (s : TState)
    (hl : List.lookup (dec_rip_u64 s.rip) s.breakpoints = none) :
    wait s (.stopped SIGTRAP) = (s, .stopped SIGTRAP) := by
  simp only [wait, eq_self_iff_true, if_true, hl]

/-- `wait` on any status other than a SIGTRAP stop leaves the state
untouched. -/
theorem wait_other (s : TState) (st : WStatus)
    (h : ∀ sig, st = .stopped sig → sig ≠ SIGTRAP) :
    wait s st = (s, st) := by
  cases st with
  | stopped sig =>
    have := h sig rfl
    simp [wait, this]
  | exited c => rfl
  | other => rfl

theorem Inv_target_create (m : Mem) (v : Nat → Bool) (r : Nat) :
    Inv (target_create m v r) := by
  constructor
  · simp [target_create]
  · intro p hp
    simp [target_create] at hp

theorem Inv_tracee_runs (s : TState) (r : Nat) (h : Inv s) :
    Inv { s with rip := r } := h

theorem Inv_set_breakpoint (s : TState) (a : Nat) (h : Inv s) :
    Inv (set_breakpoint s a).2.1 := by
  obtain ⟨hnd, hent⟩ := h
  cases hl : List.lookup a s.breakpoints with
  | some bp =>
    rw [set_breakpoint_present s a bp hl]
    exact ⟨hnd, hent⟩
  | none =>
    cases hv : s.valid (align_addr_to_word a) with
    | false =>
      rw [set_breakpoint_absent_err s a hl hv]
      exact ⟨hnd, hent⟩
    | true =>
      rw [set_breakpoint_absent_ok s a hl hv]
      constructor
      · simp only [List.map_cons]
        refine List.nodup_cons.mpr ⟨?_, ?_⟩
        · intro hmem
          obtain ⟨p, hp, hpa⟩ := List.mem_map.mp hmem
          have hp' := List.mem_filter.mp hp
          have hne : p.1 ≠ a := by simpa using hp'.2
          exact hne hpa
        · exact hnd.sublist (List.Sublist.map _ (List.filter_sublist _))
      · intro p hp
        rcases List.mem_cons.mp hp with h1 | h1
        · subst h1
          refine ⟨rfl, (s.mem a).isLt, hv, ?_, ?_⟩
          · intro _
            simp [byteCC_val]
          · intro hcontra
            simp at hcontra
        · have hpf := List.mem_filter.mp h1
          have hne : p.1 ≠ a := by simpa using hpf.2
          obtain ⟨e1, e2, e3, e4, e5⟩ := hent p hpf.1
          refine ⟨e1, e2, e3, ?_, ?_⟩
          · intro hf
            simpa [hne] using e4 hf
          · intro hf
            simpa [hne] using e5 hf

theorem Inv_delete_breakpoint (s : TState) (a : Nat) (h : Inv s) :
    Inv (delete_breakpoint s a).2.1 := by
  obtain ⟨hnd, hent⟩ := h
  cases hl : List.lookup a s.breakpoints with
  | none =>
    rw [delete_breakpoint_absent s a hl]
    exact ⟨hnd, hent⟩
  | some bp =>
    have hmem := lookup_mem hl
    obtain ⟨e1, e2, e3, e4, e5⟩ := hent (a, bp) hmem
    rw [delete_breakpoint_present_ok s a bp hl e2 e3]
    constructor
    · exact hnd.sublist (List.Sublist.map _ (List.filter_sublist _))
    · intro p hp
      have hpf := List.mem_filter.mp hp
      have hne : p.1 ≠ a := by simpa using hpf.2
      obtain ⟨f1, f2, f3, f4, f5⟩ := hent p hpf.1
      refine ⟨f1, f2, f3, ?_, ?_⟩
      · intro hf
        simpa [hne] using f4 hf
      · intro hf
        simpa [hne] using f5 hf

theorem Inv_cont (s : TState) (h : Inv s) : Inv (cont s).2 := by
  obtain ⟨hnd, hent⟩ := h
  have hval : ∀ p ∈ s.breakpoints, p.2.set_on_continue = true →
      s.valid (align_addr_to_word p.1) = true :=
    fun p hp _ => (hent p hp).2.2.1
  obtain ⟨nss, s', heq, h1, h2, h3, h4, h5⟩ := cont_ok s hval
  rw [heq]
  constructor
  · rw [h4, List.map_map]
    exact hnd
  · intro p hp
    rw [h4] at hp
    obtain ⟨q, hq, hfq⟩ := List.mem_map.mp hp
    obtain ⟨g1, g2, g3, g4, g5⟩ := hent q hq
    subst hfq
    refine ⟨g1, g2, by rw [h1]; exact g3, ?_, ?_⟩
    · intro _
      rw [h5 q.1]
      cases hA : s.breakpoints.any (fun p => p.1 == q.1 && p.2.set_on_continue) with
      | true => simp [byteCC_val]
      | false =>
        have hqf : q.2.set_on_continue = false := by
          cases hqf : q.2.set_on_continue with
          | false => rfl
          | true =>
            have : s.breakpoints.any (fun p => p.1 == q.1 && p.2.set_on_continue) = true :=
              List.any_eq_true.mpr ⟨q, hq, by simp [hqf]⟩
            rw [hA] at this
            cases this
        exact g4 hqf
    · intro hcontra
      simp at hcontra

theorem Inv_wait (s : TState) (st : WStatus) (h : Inv s) : Inv (wait s st).1 := by
  obtain ⟨hnd, hent⟩ := h
  cases st with
  | exited c => exact ⟨hnd, hent⟩
  | other => exact ⟨hnd, hent⟩
  | stopped sig =>
    by_cases hsig : sig = SIGTRAP
    · subst hsig
      cases hl : List.lookup (dec_rip_u64 s.rip) s.breakpoints with
      | none =>
        rw [wait_miss s hl]
        exact ⟨hnd, hent⟩
      | some bp =>
        have hmem := lookup_mem hl
        obtain ⟨e1, e2, e3, e4, e5⟩ := hent _ hmem
        rw [wait_hit s bp hl e1 e2 e3]
        constructor
        · rw [markHit_keys]
          exact hnd
        · intro p hp
          unfold markHit at hp
          obtain ⟨q, hq, hfq⟩ := List.mem_map.mp hp
          by_cases hqk : q.1 = dec_rip_u64 s.rip
          · have hqeq : q = (dec_rip_u64 s.rip, bp) :=
              List.inj_on_of_nodup_map hnd hq hmem hqk
            subst hqeq
            rw [if_pos (by simp [hqk])] at hfq
            subst hfq
            refine ⟨e1, e2, e3, ?_, ?_⟩
            · intro hcontra
              simp at hcontra
            · intro _
              simp
          · rw [if_neg (by simpa using hqk)] at hfq
            subst hfq
            obtain ⟨f1, f2, f3, f4, f5⟩ := hent q hq
            refine ⟨f1, f2, f3, ?_, ?_⟩
            · intro hf
              simpa [hqk] using f4 hf
            · intro hf
              simpa [hqk] using f5 hf
    · rw [wait_other s (.stopped sig) (fun sig' heq => by cases heq; exact hsig)]
      exact ⟨hnd, hent⟩

/-- Every reachable target satisfies the strengthened invariant. -/
theorem Inv_of_Reach {s : TState} (h : Reach s) : Inv s := by
  induction h with
  | create m v r => exact Inv_target_create m v r
  | set_bp s a _ ih => exact Inv_set_breakpoint s a ih
  | del_bp s a _ ih => exact Inv_delete_breakpoint s a ih
  | do_cont s _ ih => exact Inv_cont s ih
  | do_wait s st _ ih => exact Inv_wait s st ih
  | tracee_runs s r _ ih => exact Inv_tracee_runs s r ih

theorem lookup_filter_ne (a : Nat) (l : List (Nat × Breakpoint)) :
    List.lookup a (l.filter (fun p => !(p.1 == a))) = none := by
  induction l with
  | nil => rfl
  | cons hd t ih =>
    obtain ⟨k, v⟩ := hd
    by_cases hk : k = a
    · subst hk
      simpa [List.filter_cons] using ih
    · have h1 : (!((k, v).1 == a)) = true := by simp [hk]
      rw [List.filter_cons, if_pos h1, lookup_cons_ne _ _ _ _ (by simp [Ne.symm hk])]
      exact ih

theorem filter_of_lookup_none (a : Nat) (l : List (Nat × Breakpoint))
    (hl : List.lookup a l = none) :
    l.filter (fun p => !(p.1 == a)) = l := by
  apply List.filter_eq_self.mpr
  intro p hp
  have := lookup_none hl p hp
  simpa using this

/-- `restore_breakpoint` on a present key, without caring whether the
write succeeds: reports `true`, leaves the map, map keys, validity and
counter alone, prints nothing. -/
theorem restore_breakpoint_present_parts (s : TState) (a : Nat) (bp : Breakpoint)
    (hl : List.lookup a s.breakpoints = some bp) :
    (restore_breakpoint s a).1 = true ∧
    (restore_breakpoint s a).2.1.breakpoints = s.breakpoints ∧
    (restore_breakpoint s a).2.1.valid = s.valid ∧
    (restore_breakpoint s a).2.2 = [] := by
  unfold restore_breakpoint
  simp only [hl]
  cases hw : write_byte s a bp.original_byte with
  | error e => exact ⟨rfl, rfl, rfl, rfl⟩
  | ok pr =>
    obtain ⟨orig, mem'⟩ := pr
    exact ⟨rfl, rfl, rfl, rfl⟩

/-- `delete_breakpoint` on a present key, independent of the write
outcome: success, the entry is erased, deletion is reported. -/
theorem delete_breakpoint_present_parts (s : TState) (a : Nat) (bp : Breakpoint)
    (hl : List.lookup a s.breakpoints = some bp) :
    (delete_breakpoint s a).1 = .ok () ∧
    (delete_breakpoint s a).2.1.breakpoints =
      s.breakpoints.filter (fun p => !(p.1 == a)) ∧
    (delete_breakpoint s a).2.2 = [.bpDeleted bp.idx] := by
  obtain ⟨h1, h2, h3, h4⟩ := restore_breakpoint_present_parts s a bp hl
  rcases hres : restore_breakpoint s a with ⟨b, s', ev⟩
  rw [hres] at h1 h2 h3 h4
  simp only at h1 h2 h3 h4
  subst h1
  subst h4
  unfold delete_breakpoint
  rw [hres]
  refine ⟨rfl, ?_, ?_⟩
  · simp only [h2]
  · simp only [h2, hl, Option.map_some', Option.getD_some, List.nil_append]

theorem to_digit16_lt (c : Char) (d : Nat) (h : to_digit16 c = some d) : d < 16 := by
  unfold to_digit16 at h
  split at h
  · injection h with h2
    omega
  · split at h
    · injection h with h2
      omega
    · split at h
      · injection h with h2
        omega
      · exact Option.noConfusion h

theorem hexVal_fold_ge (cs : List Char) (acc : Nat) :
    acc ≤ cs.foldl (fun a c => a * 16 + (to_digit16 c).getD 0) acc := by
  induction cs generalizing acc with
  | nil => simp
  | cons c t ih =>
    simp only [List.foldl]
    calc acc ≤ acc * 16 + (to_digit16 c).getD 0 := by omega
    _ ≤ _ := ih _

/-- The parse loop computes the digit fold, failing exactly on 64-bit
overflow. -/
theorem from_str_radix_loop_spec (cs : List Char) (acc : Nat)
    (hacc : acc < 2 ^ 64)
    (h : ∀ c ∈ cs, isHexDigitChar c = true) :
    from_str_radix_loop acc cs =
      if cs.foldl (fun a c => a * 16 + (to_digit16 c).getD 0) acc < 2 ^ 64
      then some (cs.foldl (fun a c => a * 16 + (to_digit16 c).getD 0) acc)
      else none := by
  induction cs generalizing acc with
  | nil =>
    rw [List.foldl_nil, if_pos hacc]
    rfl
  | cons c t ih =>
    have hc := h c (List.mem_cons_self _ _)
    obtain ⟨d, hd⟩ := Option.isSome_iff_exists.mp hc
    simp only [from_str_radix_loop, hd, List.foldl, Option.getD_some]
    by_cases hov : acc * 16 + d < 2 ^ 64
    · rw [if_pos hov]
      exact ih (acc * 16 + d) hov (fun q hq => h q (List.mem_cons_of_mem _ hq))
    · rw [if_neg hov]
      have hge := hexVal_fold_ge t (acc * 16 + d)
      rw [if_neg (by omega)]

/-- `from_str_radix` on a nonempty all-hex string: the value when it fits
in `usize`, an error when it overflows. -/
theorem usize_hex_spec (cs : List Char) (h1 : cs ≠ [])
    (h2 : ∀ c ∈ cs, isHexDigitChar c = true) :
    usize_from_str_radix_16 cs =
      if hexVal cs < 2 ^ 64 then some (hexVal cs) else none := by
  obtain ⟨c, rest, rfl⟩ := List.exists_cons_of_ne_nil h1
  have hc := h2 c (List.mem_cons_self _ _)
  have hplus : c ≠ '+' := by
    intro he
    subst he
    exact absurd hc (by decide)
  have hminus : c ≠ '-' := by
    intro he
    subst he
    exact absurd hc (by decide)
  unfold usize_from_str_radix_16
  simp only [if_neg hplus, if_neg hminus]
  rw [if_neg (by simp)]
  rw [if_neg (by simp)]
  have := from_str_radix_loop_spec (c :: rest) 0 (by norm_num) h2
  simpa [hexVal] using this

/-- For a hex-digit-only argument neither the `0x` strip nor the sign
handling of `parse_address` applies. -/
theorem parse_address_hex (name : String) (h1 : name.data ≠ [])
    (h2 : ∀ c ∈ name.data, isHexDigitChar c = true) :
    parse_address name = usize_from_str_radix_16 name.data := by
  unfold parse_address
  cases hd : name.data with
  | nil => rfl
  | cons c0 tl =>
    cases tl with
    | nil => rfl
    | cons c1 rest =>
      have hmem : c1 ∈ name.data := by
        rw [hd]
        exact List.mem_cons_of_mem _ (List.mem_cons_self _ _)
      have hx : ¬(c0 = '0' ∧ (c1 = 'x' ∨ c1 = 'X')) := by
        rintro ⟨h0, hlo | hup⟩
        · subst hlo
          exact absurd (h2 _ hmem) (by decide)
        · subst hup
          exact absurd (h2 _ hmem) (by decide)
      show usize_from_str_radix_16
          (if c0 = '0' ∧ (c1 = 'x' ∨ c1 = 'X') then rest else c0 :: c1 :: rest) =
        usize_from_str_radix_16 (c0 :: c1 :: rest)
      rw [if_neg hx]

/-- C1: in every reachable target state, a breakpoint entry whose
`set_on_continue` is false sits over an INT3 byte, and one whose
`set_on_continue` is true sits over its recorded original byte.  (This is
the amended, one-directional form of invariant I1; the stated
equivalences fail when the original byte itself is 0xCC, see
`c1_counterexample`.) -/
theorem c1_theorem (s : TState) (h : Reach s) :
    ∀ p ∈ s.breakpoints,
      (p.2.set_on_continue = false → (s.mem p.2.address).val = 0xCC) ∧
      (p.2.set_on_continue = true → (s.mem p.2.address).val = p.2.original_byte) := by
  obtain ⟨hnd, hent⟩ := Inv_of_Reach h
  intro p hp
  obtain ⟨e1, e2, e3, e4, e5⟩ := hent p hp
  rw [e1]
  exact ⟨e4, e5⟩

/-- C1 as stated is false: setting a breakpoint where the instruction
byte already is 0xCC yields a reachable state in which the byte equals
`original_byte` although `set_on_continue` is false, so the second
equivalence of I1 fails. -/
theorem c1_counterexample : Reach c1CexState ∧ ¬ ClaimedI1 c1CexState :=
  ⟨Reach.set_bp _ 0 (Reach.create memCC allValid 0), by decide⟩

theorem c1_witness :
    ((0, (⟨0, 0, 0xCC, false⟩ : Breakpoint)) ∈ c1CexState.breakpoints) ∧
    (c1CexState.mem 0).val = 0xCC :=
  ⟨by decide, by
    have h := c1_theorem c1CexState (Reach.set_bp _ 0 (Reach.create memCC allValid 0))
      (0, ⟨0, 0, 0xCC, false⟩) (by decide)
    exact h.1 rfl⟩

/-- C2: with two `set_on_continue` breakpoints, the one at `rip` iterated
first, `cont` ends with `need_single_step = false` (the assignment keeps
only the last comparison), so no single step is performed although a
re-armed address equals `rip`.  This exhibits the claim's "iff" failing
on the code. -/
theorem c2_theorem :
    List.lookup c2State.rip c2State.breakpoints = some ⟨4096, 0, 0x55, true⟩ ∧
    (⟨4096, 0, 0x55, true⟩ : Breakpoint).set_on_continue = true ∧
    (cont c2State).1 = Except.ok false :=
  ⟨by decide, rfl, by decide⟩

/-- C3: on a SIGTRAP stop with `rip - 1` a breakpoint key of a reachable
target, `wait` leaves `rip` on the breakpoint address (not address + 1),
flags the entry `set_on_continue`, and restores the original byte; when
`rip - 1` is no breakpoint key, the state (registers included) is
unchanged. -/
theorem c3_theorem (s : TState) (bp : Breakpoint) (h : Reach s) :
    (List.lookup (dec_rip_u64 s.rip) s.breakpoints = some bp →
      (wait s (.stopped SIGTRAP)).1.rip = bp.address ∧
      List.lookup (dec_rip_u64 s.rip) (wait s (.stopped SIGTRAP)).1.breakpoints =
        some { bp with set_on_continue := true } ∧
      ((wait s (.stopped SIGTRAP)).1.mem bp.address).val = bp.original_byte) ∧
    (List.lookup (dec_rip_u64 s.rip) s.breakpoints = none →
      (wait s (.stopped SIGTRAP)).1 = s) := by
  obtain ⟨hnd, hent⟩ := Inv_of_Reach h
  constructor
  · intro hl
    obtain ⟨e1, e2, e3, e4, e5⟩ := hent _ (lookup_mem hl)
    have hw := wait_hit s bp hl e1 e2 e3
    refine ⟨?_, ?_, ?_⟩
    · rw [hw]
      exact e1.symm
    · rw [hw]
      have h2 := lookup_markHit (dec_rip_u64 s.rip) s.breakpoints
      rw [hl, Option.map_some'] at h2
      exact h2
    · rw [hw, show bp.address = dec_rip_u64 s.rip from e1]
      simp
  · intro hl
    rw [wait_miss s hl]

theorem c3_witness :
    List.lookup (dec_rip_u64 c3WitState.rip) c3WitState.breakpoints =
      some ⟨4, 0, 0x90, false⟩ ∧
    ((wait c3WitState (.stopped SIGTRAP)).1.rip =
        (⟨4, 0, 0x90, false⟩ : Breakpoint).address ∧
      List.lookup (dec_rip_u64 c3WitState.rip)
          (wait c3WitState (.stopped SIGTRAP)).1.breakpoints =
        some { (⟨4, 0, 0x90, false⟩ : Breakpoint) with set_on_continue := true } ∧
      ((wait c3WitState (.stopped SIGTRAP)).1.mem
          (⟨4, 0, 0x90, false⟩ : Breakpoint).address).val =
        (⟨4, 0, 0x90, false⟩ : Breakpoint).original_byte) :=
  ⟨by decide,
    (c3_theorem c3WitState ⟨4, 0, 0x90, false⟩
      (Reach.tracee_runs _ 5 (Reach.set_bp _ 4 (Reach.create mem90 allValid 5)))).1
      (by decide)⟩

/-- C4: on an address not in the map, `set_breakpoint` then
`delete_breakpoint` restores every byte of tracee memory (the word
containing the address in particular) and leaves the address out of the
map — in fact the whole breakpoint map is back to what it was. -/
theorem c4_theorem (s : TState) (a : Nat)
    (hl : List.lookup a s.breakpoints = none) :
    (∀ x, ((delete_breakpoint (set_breakpoint s a).2.1 a).2.1).mem x = s.mem x) ∧
    List.lookup a ((delete_breakpoint (set_breakpoint s a).2.1 a).2.1).breakpoints =
      none ∧
    ((delete_breakpoint (set_breakpoint s a).2.1 a).2.1).breakpoints =
      s.breakpoints := by
  cases hv : s.valid (align_addr_to_word a) with
  | false =>
    have hs1 : (set_breakpoint s a).2.1 =
        { s with next_bp_num := (s.next_bp_num + 1) % 2 ^ 32 } := by
      rw [set_breakpoint_absent_err s a hl hv]
    rw [hs1]
    have hd1 : (delete_breakpoint
          { s with next_bp_num := (s.next_bp_num + 1) % 2 ^ 32 } a).2.1 =
        { s with next_bp_num := (s.next_bp_num + 1) % 2 ^ 32 } := by
      rw [delete_breakpoint_absent
        { s with next_bp_num := (s.next_bp_num + 1) % 2 ^ 32 } a hl]
    rw [hd1]
    exact ⟨fun x => rfl, hl, rfl⟩
  | true =>
    have hs1 : (set_breakpoint s a).2.1 =
        ({ mem := fun x => if x = a then byteCC else s.mem x, valid := s.valid,
           rip := s.rip, next_bp_num := (s.next_bp_num + 1) % 2 ^ 32,
           breakpoints := (a, ⟨a, s.next_bp_num, (s.mem a).val, false⟩) ::
             s.breakpoints.filter (fun p => !(p.1 == a)) } : TState) := by
      rw [set_breakpoint_absent_ok s a hl hv]
    rw [hs1, filter_of_lookup_none a s.breakpoints hl]
    have hd1 : (delete_breakpoint
        ({ mem := fun x => if x = a then byteCC else s.mem x, valid := s.valid,
           rip := s.rip, next_bp_num := (s.next_bp_num + 1) % 2 ^ 32,
           breakpoints := (a, ⟨a, s.next_bp_num, (s.mem a).val, false⟩) ::
             s.breakpoints } : TState) a).2.1 =
        ({ mem := fun x => if x = a then ⟨(s.mem a).val, (s.mem a).isLt⟩
             else if x = a then byteCC else s.mem x,
           valid := s.valid, rip := s.rip,
           next_bp_num := (s.next_bp_num + 1) % 2 ^ 32,
           breakpoints := ((a, (⟨a, s.next_bp_num, (s.mem a).val, false⟩ : Breakpoint)) ::
             s.breakpoints).filter (fun p => !(p.1 == a)) } : TState) := by
      rw [delete_breakpoint_present_ok
        ({ mem := fun x => if x = a then byteCC else s.mem x, valid := s.valid,
           rip := s.rip, next_bp_num := (s.next_bp_num + 1) % 2 ^ 32,
           breakpoints := (a, ⟨a, s.next_bp_num, (s.mem a).val, false⟩) ::
             s.breakpoints } : TState)
        a ⟨a, s.next_bp_num, (s.mem a).val, false⟩
        (lookup_cons_self _ _ _) ((s.mem a).isLt) hv]
    rw [hd1]
    refine ⟨?_, ?_, ?_⟩
    · intro x
      by_cases hx : x = a
      · subst hx
        simp
      · simp [hx]
    · exact lookup_filter_ne a _
    · rw [List.filter_cons, if_neg (by simp), filter_of_lookup_none a s.breakpoints hl]

theorem c4_witness :
    List.lookup 9 (target_create mem90 allValid 0).breakpoints = none ∧
    ((delete_breakpoint (set_breakpoint (target_create mem90 allValid 0) 9).2.1 9).2.1).mem 9 =
      (target_create mem90 allValid 0).mem 9 ∧
    List.lookup 9
      ((delete_breakpoint (set_breakpoint (target_create mem90 allValid 0) 9).2.1 9).2.1).breakpoints =
      none :=
  ⟨by decide,
    (c4_theorem (target_create mem90 allValid 0) 9 (by decide)).1 9,
    (c4_theorem (target_create mem90 allValid 0) 9 (by decide)).2.1⟩

/-- C5 (amended): `get_base_address` parses the low end of the first
`maps` line and returns it; every failure path (unopenable file, missing
first line, unparseable low bound) PANICS instead of returning an error
(the `Result` is never `Err`, there is no `MapsUnavailable` value), and
`Target::create` would swallow a returned error into `base_address = 0`
via `unwrap_or(0)` rather than abort. -/
theorem c5_theorem :
    (∀ f : Option (List String), get_base_address f ≠ .errored) ∧
    get_base_address none = .panicked "Could not open maps" ∧
    get_base_address (some []) = .panicked "maps file has no first line" ∧
    (∀ (line : String) (tl : List String) (v : Nat),
      usize_from_str_radix_16 (line.data.takeWhile (fun c => c ≠ '-')) = some v →
      get_base_address (some (line :: tl)) = .ok v) ∧
    (∀ (f : Option (List String)) (v : Nat),
      get_base_address f = .ok v → create_base_address f = .ok v) ∧
    unwrap_or_zero .errored = .ok 0 := by
  refine ⟨?_, rfl, rfl, ?_, ?_, rfl⟩
  · intro f
    cases f with
    | none => simp [get_base_address]
    | some lines =>
      cases lines with
      | nil => simp [get_base_address]
      | cons line tl =>
        simp only [get_base_address]
        cases h : usize_from_str_radix_16 (line.data.takeWhile (fun c => c ≠ '-')) <;>
          simp
  · intro line tl v h
    simp only [get_base_address, h]
  · intro f v h
    simp [create_base_address, h, unwrap_or_zero]

/-- C5 as stated is false: when the maps file cannot be opened the
function panics; it does not return an error value (`errored` is the only
`Err` outcome and is never produced), so no `MapsUnavailable` error
reaches `Target::create`. -/
theorem c5_counterexample :
    get_base_address none = RunResult.panicked "Could not open maps" ∧
    get_base_address none ≠ (RunResult.errored : RunResult Nat) :=
  ⟨rfl, by decide⟩

theorem c5_witness :
    usize_from_str_radix_16 (("55a000-55b000 r--p".data).takeWhile (fun c => c ≠ '-')) =
      some 0x55a000 ∧
    get_base_address (some ["55a000-55b000 r--p"]) = RunResult.ok 0x55a000 :=
  ⟨by decide, c5_theorem.2.2.2.1 "55a000-55b000 r--p" [] 0x55a000 (by decide)⟩

/-- C6 (amended): `read_bytes(a, n)` peeks the aligned word containing
`a` (propagating a peek failure) but returns the empty vector whatever
`n` is; the described slicing does not happen. -/
theorem c6_theorem (s : TState) (addr amount : Nat) :
    (s.valid (align_addr_to_word addr) = true →
      read_bytes s addr amount = Except.ok []) ∧
    (s.valid (align_addr_to_word addr) = false →
      read_bytes s addr amount = Except.error ()) := by
  unfold read_bytes ptraceRead
  constructor <;> intro h <;> simp [h]

/-- C6 as stated is false: reading one byte at address 0 of a tracee
whose bytes are 0x90 yields `Ok(vec![])`, not the byte 0x90. -/
theorem c6_counterexample :
    read_bytes (target_create mem90 allValid 0) 0 1 = Except.ok [] ∧
    read_bytes (target_create mem90 allValid 0) 0 1 ≠
      Except.ok [((target_create mem90 allValid 0).mem 0).val] :=
  ⟨by decide, by decide⟩

theorem c6_witness :
    (target_create mem90 allValid 0).valid (align_addr_to_word 0) = true ∧
    read_bytes (target_create mem90 allValid 0) 0 5 = Except.ok [] :=
  ⟨by decide, (c6_theorem (target_create mem90 allValid 0) 0 5).1 (by decide)⟩

/-- C7 (amended): the printed local is the word at `cfa + fbreg_offset`
(`cfa = rbp + 16`) reduced `mod 2 ^ (8 * byte_size)` for `byte_size < 8`
and unchanged for `byte_size ≥ 8`, but it is rendered with the
space-padded width-18 format `{name} = {value:#18x}`, not the
zero-padded `{:#018x}` the claim quotes. -/
theorem c7_theorem (s : TState) (type_byte_size : Nat → Option Nat)
    (rbp : Nat) (fbreg_offset : Int) (t : Nat) (name : String) (addr sz : Nat)
    (ha : get_offset_from_cfa rbp fbreg_offset = some addr)
    (ht : type_byte_size t = some sz) :
    print_local s type_byte_size rbp fbreg_offset t name =
      some (name ++ " = " ++ rust_format_hex_hash18
        (if sz < 8 then ((ptraceRead s addr).getD 0) % 2 ^ (8 * sz)
         else (ptraceRead s addr).getD 0)) := by
  simp only [print_local, ha, ht]
  by_cases h : sz < 8
  · rw [if_pos (show 8 * sz < 64 by omega), if_pos h]
  · rw [if_neg (show ¬8 * sz < 64 by omega), if_neg h]

/-- C7 as stated is false: a 4-byte local with value 0x2a prints as
`x =               0x2a` (space padded), not `x = 0x000000000000002a`. -/
theorem c7_counterexample :
    print_local c7State ts4 80 0 7 "x" = some "x =               0x2a" ∧
    print_local c7State ts4 80 0 7 "x" ≠
      some ("x = " ++ rust_format_hex_hash018 42) :=
  ⟨by decide, by decide⟩

theorem c7_witness :
    get_offset_from_cfa 80 0 = some 96 ∧ ts4 7 = some 4 ∧
    print_local c7State ts4 80 0 7 "x" =
      some ("x = " ++ rust_format_hex_hash18 ((ptraceRead c7State 96).getD 0 % 2 ^ 32)) := by
  refine ⟨by decide, by decide, ?_⟩
  have h := c7_theorem c7State ts4 80 0 7 "x" 96 4 (by decide) (by decide)
  simpa using h

/-- C8: when the INT3 poke of `set_breakpoint` at a fresh address fails,
the error is returned and no entry is inserted, the tracee memory is
untouched, but `next_bp_num` has already been incremented, so the next
successful breakpoint gets an index one higher than expected. -/
theorem c8_theorem (s : TState) (a : Nat)
    (hl : List.lookup a s.breakpoints = none)
    (hv : s.valid (align_addr_to_word a) = false) :
    (set_breakpoint s a).1 = Except.error () ∧
    (set_breakpoint s a).2.1.breakpoints = s.breakpoints ∧
    (∀ x, (set_breakpoint s a).2.1.mem x = s.mem x) ∧
    (set_breakpoint s a).2.1.next_bp_num = (s.next_bp_num + 1) % 2 ^ 32 ∧
    (∀ b, List.lookup b s.breakpoints = none →
      s.valid (align_addr_to_word b) = true →
      List.lookup b ((set_breakpoint (set_breakpoint s a).2.1 b).2.1).breakpoints =
        some ⟨b, (s.next_bp_num + 1) % 2 ^ 32, (s.mem b).val, false⟩) := by
  have hs1 : (set_breakpoint s a).2.1 =
      { s with next_bp_num := (s.next_bp_num + 1) % 2 ^ 32 } := by
    rw [set_breakpoint_absent_err s a hl hv]
  have hr1 : (set_breakpoint s a).1 = Except.error () := by
    rw [set_breakpoint_absent_err s a hl hv]
  refine ⟨hr1, by rw [hs1], fun x => by rw [hs1], by rw [hs1], ?_⟩
  intro b hlb hvb
  rw [hs1]
  have hs2 := set_breakpoint_absent_ok
    { s with next_bp_num := (s.next_bp_num + 1) % 2 ^ 32 } b hlb hvb
  rw [hs2]
  exact lookup_cons_self _ _ _

theorem c8_witness :
    List.lookup 200 (target_create mem90 lowValid 0).breakpoints = none ∧
    (target_create mem90 lowValid 0).valid (align_addr_to_word 200) = false ∧
    (set_breakpoint (target_create mem90 lowValid 0) 200).1 = Except.error () ∧
    (set_breakpoint (target_create mem90 lowValid 0) 200).2.1.next_bp_num = 1 ∧
    List.lookup 8
      ((set_breakpoint (set_breakpoint (target_create mem90 lowValid 0) 200).2.1 8).2.1).breakpoints =
      some ⟨8, 1, 0x90, false⟩ := by
  have h := c8_theorem (target_create mem90 lowValid 0) 200 (by decide) (by decide)
  exact ⟨by decide, by decide, h.1, h.2.2.2.1, h.2.2.2.2 8 (by decide) (by decide)⟩

/-- C9: `delete_breakpoint` of a present address always succeeds, removes
the entry and reports the deletion, even when the restoring poke fails
(the error is discarded by `.ok()`), in which case the tracee memory
keeps the INT3 byte while the record of the original byte is gone. -/
theorem c9_theorem (s : TState) (a : Nat) (bp : Breakpoint)
    (hl : List.lookup a s.breakpoints = some bp) :
    (delete_breakpoint s a).1 = Except.ok () ∧
    List.lookup a (delete_breakpoint s a).2.1.breakpoints = none ∧
    OutEvent.bpDeleted bp.idx ∈ (delete_breakpoint s a).2.2 ∧
    (s.valid (align_addr_to_word a) = false →
      ∀ x, (delete_breakpoint s a).2.1.mem x = s.mem x) := by
  obtain ⟨h1, h2, h3⟩ := delete_breakpoint_present_parts s a bp hl
  refine ⟨h1, ?_, ?_, ?_⟩
  · rw [h2]
    exact lookup_filter_ne a _
  · rw [h3]
    exact List.mem_singleton.mpr rfl
  · intro hv x
    rw [delete_breakpoint_present_err s a bp hl hv]

theorem c9_witness :
    List.lookup 64 c9State.breakpoints = some ⟨64, 0, 0x90, false⟩ ∧
    c9State.valid (align_addr_to_word 64) = false ∧
    (delete_breakpoint c9State 64).1 = Except.ok () ∧
    List.lookup 64 (delete_breakpoint c9State 64).2.1.breakpoints = none ∧
    OutEvent.bpDeleted 0 ∈ (delete_breakpoint c9State 64).2.2 ∧
    (delete_breakpoint c9State 64).2.1.mem 64 = c9State.mem 64 := by
  have h := c9_theorem c9State 64 ⟨64, 0, 0x90, false⟩ (by decide)
  exact ⟨by decide, by decide, h.1, h.2.1, h.2.2.1, h.2.2.2 (by decide) 64⟩

/-- C10 (amended): a nonempty hex-digit-only argument parses as an
address and yields `SetBp` exactly when its value fits in 64 bits; above
`2 ^ 64` the parse fails and the `b` command yields `SetBpName`, so
`SetBpName` does not require a non-hex character. -/
theorem c10_theorem (name : String) (h1 : name.data ≠ [])
    (h2 : ∀ c ∈ name.data, isHexDigitChar c = true) :
    (hexVal name.data < 2 ^ 64 →
      parse_address name = some (hexVal name.data) ∧
      bp_arg_command name = .SetBp (hexVal name.data)) ∧
    (2 ^ 64 ≤ hexVal name.data →
      parse_address name = none ∧
      bp_arg_command name = .SetBpName name) := by
  have hp : parse_address name =
      if hexVal name.data < 2 ^ 64 then some (hexVal name.data) else none := by
    rw [parse_address_hex name h1 h2, usize_hex_spec name.data h1 h2]
  constructor <;> intro h
  · refine ⟨by rw [hp, if_pos h], ?_⟩
    unfold bp_arg_command
    rw [hp, if_pos h]
  · refine ⟨by rw [hp, if_neg (by omega)], ?_⟩
    unfold bp_arg_command
    rw [hp, if_neg (by omega)]

/-- C10 as stated is false: `fffffffffffffffff` (17 hex digits, above
`usize::MAX`) is made of hex digits only, yet `parse_address` rejects it
and `b fffffffffffffffff` yields `SetBpName`, not `SetBp`. -/
theorem c10_counterexample :
    ("fffffffffffffffff".data.all isHexDigitChar) = true ∧
    "fffffffffffffffff".data ≠ [] ∧
    parse_address "fffffffffffffffff" = none ∧
    get_command "b fffffffffffffffff" = ReplCommand.SetBpName "fffffffffffffffff" :=
  ⟨by decide, by decide, by decide, by decide⟩

theorem c10_witness :
    ("2a".data.all isHexDigitChar) = true ∧
    parse_address "2a" = some 42 ∧ bp_arg_command "2a" = ReplCommand.SetBp 42 := by
  refine ⟨by decide, ?_, ?_⟩
  · have h0 := c10_theorem "2a" (by decide) (by decide)
    have h := h0.1 (by decide)
    have e : hexVal "2a".data = 42 := by decide
    rw [e] at h
    exact h.1
  · have h0 := c10_theorem "2a" (by decide) (by decide)
    have h := h0.1 (by decide)
    have e : hexVal "2a".data = 42 := by decide
    rw [e] at h
    exact h.2

end MiniDbg
